import Mathlib

/-!
Verification development for the BPD-Tracker journaling application
(single source file `app.py`).

The Python source is shallowly embedded below.  Conventions used by the
embedding:

* Python strings are Lean `String`s; Python indexing/slicing/length work on
  code points, exactly as Lean `List Char` operations on `s.toList`, so
  slicing and length go through `s.toList`.
* Python `sorted` is a stable sort; it is embedded as a stable insertion
  sort `sortedBy` parameterised by a boolean `le` relation.
* Python dicts are embedded as insertion-ordered association lists with
  distinct keys; `dictSet` mirrors `d[k] = v` (update in place, append new
  keys at the end) and `List.lookup` mirrors `d[k]` / `d.get(k)`.
* `datetime.now().strftime(...)` and `date.today().isoformat()` are
  embedded as explicit `now`/`today` string parameters.
* Fallible operations (`json.loads`, `date.fromisoformat`, `int(...)`)
  become `Option`; a Python exception is `none`.
-/

namespace BPDTracker

/-! ## Python string primitives -/

/-- Python `len(s)` (number of code points). -/
def pyLen (s : String) : Nat := s.toList.length

/-- Python slicing `s[:n]` (first `n` code points). -/
def pyTake (n : Nat) (s : String) : String := ⟨s.toList.take n⟩

/-- Python slicing `s[a:b]`. -/
def pySlice (a b : Nat) (s : String) : String := ⟨(s.toList.take b).drop a⟩

/-- Python `s.lower()` restricted to ASCII (all keywords and codes in the
source are ASCII, where Python and `Char.toLower` agree). -/
def pyLower (s : String) : String := ⟨s.toList.map Char.toLower⟩

/-- Lexicographic `≤` on code points for char lists, as Python compares
strings. -/
def lexLe : List Char → List Char → Bool
  | [], _ => true
  | _ :: _, [] => false
  | a :: as, b :: bs =>
    if a.toNat < b.toNat then true
    else if b.toNat < a.toNat then false
    else lexLe as bs

/-- Python `s <= t` on strings. -/
def strLe (s t : String) : Bool := lexLe s.toList t.toList

/-- `listStarts w t` : `w` is an initial run of `t`. -/
def listStarts : List Char → List Char → Bool
  | [], _ => true
  | _ :: _, [] => false
  | a :: as, b :: bs => a == b && listStarts as bs

/-- Helper for Python substring membership over char lists. -/
def subAt : List Char → List Char → Bool
  | w, [] => listStarts w []
  | w, c :: ts => listStarts w (c :: ts) || subAt w ts

/-- Python `w in t` for strings (substring containment). -/
def isSubstr (w t : String) : Bool := subAt w.toList t.toList

/-! ## Python `sorted` (stable) as insertion sort -/

/-- Insert `x` (an element originally earlier in the list) before the first
element `y` with `le x y`; keeps Python sort stability. -/
def insertLe (le : α → α → Bool) (x : α) : List α → List α
  | [] => [x]
  | y :: ys => if le x y then x :: y :: ys else y :: insertLe le x ys

/-- Python `sorted(l)` with respect to `le` (stable). -/
def sortedBy (le : α → α → Bool) : List α → List α
  | [] => []
  | x :: xs => insertLe le x (sortedBy le xs)

/-! ## Keyword lists and classifier (`app.py` 30-39, 139-147) -/

/-- `HIGH_ENERGY` keyword list (app.py lines 30-34). -/
def HIGH_ENERGY : List String := [
  "energized", "productive", "excited", "motivated", "great", "amazing", "happy", "confident",
  "focused", "uplifted", "optimistic", "restless", "wired", "invincible", "talkative",
  "racing thoughts", "euphoric", "impulsive"]

/-- `LOW_ENERGY` keyword list (app.py lines 35-39). -/
def LOW_ENERGY : List String := [
  "tired", "exhausted", "down", "sad", "low", "unmotivated", "stressed", "anxious",
  "overwhelmed", "hopeless", "burnt", "burned", "drained", "numb", "empty", "isolated",
  "worthless", "no energy", "can\x27t get out of bed"]

/-- `sum(1 for w in HIGH_ENERGY if w in t)` over the lowercased text. -/
def highCount (text : String) : Nat :=
  HIGH_ENERGY.countP (fun w => isSubstr w (pyLower text))

/-- `sum(1 for w in LOW_ENERGY if w in t)` over the lowercased text. -/
def lowCount (text : String) : Nat :=
  LOW_ENERGY.countP (fun w => isSubstr w (pyLower text))

/-- `classify_mood` (app.py lines 139-147). -/
def classify_mood (text : String) : String :=
  let high := highCount text
  let low := lowCount text
  if high > low ∧ high > 0 then "high energy"
  else if low > high ∧ low > 0 then "low energy"
  else "neutral"

/-! ## Entry records (`app.py` 95-133)

A persisted entry is a JSON object; the fields the source reads are
embedded as optional string fields (`none` = key absent).  `followup` may
be the JSON value `null`, hence `Option (Option String)`:
`none` = key absent, `some none` = present and null, `some (some s)` = a
string. -/

structure EntryDict where
  created_at : Option String := none
  timestamp : Option String := none
  entry_date : Option String := none
  mood : Option String := none
  text : Option String := none
  followup : Option (Option String) := none
deriving DecidableEq, Repr

/-- A raw element of the persisted JSON list: either an object (dict) or
some other JSON value, which `normalize_entries` skips. -/
inductive RawRecord where
  | dict (e : EntryDict)
  | nonDict
deriving DecidableEq, Repr

/-- Outcome of reading and JSON-parsing the persisted document:
the text failed to parse, or parsed to a non-list value, or parsed to a
list of records. -/
inductive Document where
  | unparsable
  | nonList
  | list (rs : List RawRecord)
deriving DecidableEq, Repr

/-- Python truthiness for an optional string: `None` and `""` are falsy. -/
def truthy : Option String → Option String
  | none => none
  | some s => if s = "" then none else some s

/-- The per-record body of the `normalize_entries` loop (app.py 102-117),
with `datetime.now().strftime(...)` = `now` and
`date.today().isoformat()` = `today`. -/
def norm1 (now today : String) (e : EntryDict) : EntryDict :=
  let created_at :=
    match truthy e.created_at with
    | some c => c
    | none =>
      match truthy e.timestamp with
      | some c => c
      | none => now
  let entry_date :=
    match truthy e.entry_date with
    | some d => d
    | none => if pyLen created_at ≥ 10 then pyTake 10 created_at else today
  { created_at := some created_at
    timestamp := e.timestamp
    entry_date := some entry_date
    mood := some (e.mood.getD "neutral")
    text := some (e.text.getD "")
    followup :=
      match e.followup with
      | none => some none
      | some f => some f }

/-- `normalize_entries` (app.py 95-118): skip non-dict records, normalize
the rest in order. -/
def normalize_entries (now today : String) : List RawRecord → List EntryDict
  | [] => []
  | .nonDict :: rest => normalize_entries now today rest
  | .dict e :: rest => norm1 now today e :: normalize_entries now today rest

/-- `load_entries` (app.py 121-129): a missing file (`none`), an
unparsable document, or a parsed non-list all give `[]`; a parsed list is
normalized. -/
def load_entries (now today : String) : Option Document → List EntryDict
  | none => []
  | some .unparsable => []
  | some .nonList => []
  | some (.list rs) => normalize_entries now today rs

/-- `save_entries` (app.py 132-133): `json.dumps` of a list of entry
objects; text serialization and reparsing is value-faithful, so the
document is the list itself. -/
def save_entries (entries : List EntryDict) : Document :=
  .list (entries.map .dict)

/-! ## Daily aggregation (`app.py` 176-187) -/

/-- Python `d[k] = v` on an insertion-ordered dict embedded as an
association list: replace in place, or append a new key at the end. -/
def dictSet (k : κ) (v : β) [DecidableEq κ] : List (κ × β) → List (κ × β)
  | [] => [(k, v)]
  | (k0, v0) :: rest => if k0 = k then (k, v) :: rest else (k0, v0) :: dictSet k v rest

/-- The body of the `daily_moods` loop (app.py 179-186). -/
def daily_step (best : List (String × String × String)) (e : EntryDict) :
    List (String × String × String) :=
  match truthy e.entry_date with
  | none => best
  | some d =>
    let created_at := e.created_at.getD ""
    let mood := e.mood.getD "neutral"
    match List.lookup d best with
    | none => dictSet d (created_at, mood) best
    | some (ca0, _) =>
      if strLe ca0 created_at then dictSet d (created_at, mood) best else best

/-- `daily_moods` (app.py 176-187): map `YYYY-MM-DD` to the mood of the
entry with the largest `created_at` for that day. -/
def daily_moods (entries : List EntryDict) : List (String × String) :=
  (entries.foldl daily_step []).map (fun p => (p.1, p.2.2))

/-! ## Calendar dates

`datetime.date` is embedded as a year/month/day triple.  Date subtraction
and ordering go through `toDays`, CPython's `date.toordinal`
(`_ymd2ord`): day 1 is 0001-01-01. -/

structure PyDate where
  y : Nat
  m : Nat
  d : Nat
deriving DecidableEq, Repr

/-- Gregorian leap year, as CPython `_is_leap`. -/
def isLeap (y : Nat) : Bool := (y % 4 == 0 && y % 100 != 0) || y % 400 == 0

/-- Days in a month (1-12), as CPython `_days_in_month`. -/
def daysInMonth (y m : Nat) : Nat :=
  if m = 2 then (if isLeap y then 29 else 28)
  else if m = 4 ∨ m = 6 ∨ m = 9 ∨ m = 11 then 30
  else 31

/-- Cumulative days before month `m` in a non-leap year
(CPython `_DAYS_BEFORE_MONTH`). -/
def daysBeforeMonthBase : Nat → Nat
  | 1 => 0 | 2 => 31 | 3 => 59 | 4 => 90 | 5 => 120 | 6 => 151
  | 7 => 181 | 8 => 212 | 9 => 243 | 10 => 273 | 11 => 304 | 12 => 334
  | _ => 0

/-- CPython `_days_before_month`. -/
def days_before_month (y m : Nat) : Nat :=
  daysBeforeMonthBase m + (if 2 < m ∧ isLeap y then 1 else 0)

/-- CPython `_days_before_year`: `y*365 + y//4 - y//100 + y//400` with
`y = year - 1` (rearranged so the only subtraction cannot underflow,
since `(y-1)/100 ≤ (y-1)/4`). -/
def days_before_year (y : Nat) : Nat :=
  365 * (y - 1) + (y - 1) / 4 + (y - 1) / 400 - (y - 1) / 100

/-- CPython `_ymd2ord` = `date.toordinal`. -/
def PyDate.toDays (dt : PyDate) : Nat :=
  days_before_year dt.y + days_before_month dt.y dt.m + dt.d

/-- `date.weekday()`: Monday = 0.  Ordinal 1 (0001-01-01) was a Monday. -/
def PyDate.weekday (dt : PyDate) : Nat := (dt.toDays + 6) % 7

/-- A representable `datetime.date`: CPython bounds the year to 1..9999
and validates month and day. -/
def PyDate.Valid (dt : PyDate) : Prop :=
  1 ≤ dt.y ∧ dt.y ≤ 9999 ∧ 1 ≤ dt.m ∧ dt.m ≤ 12 ∧ 1 ≤ dt.d ∧ dt.d ≤ daysInMonth dt.y dt.m

instance (dt : PyDate) : Decidable dt.Valid := by
  unfold PyDate.Valid; infer_instance

/-- ASCII digit value of a char, if it is a digit. -/
def digitVal (c : Char) : Option Nat :=
  if 48 ≤ c.toNat ∧ c.toNat ≤ 57 then some (c.toNat - 48) else none

/-- Value of a list of ASCII digit chars, if all are digits. -/
def digitsVal : List Char → Option Nat
  | [] => some 0
  | c :: cs =>
    match digitVal c, digitsVal cs with
    | some v, some acc => some (v * 10 ^ cs.length + acc)
    | _, _ => none

/-- `date.fromisoformat`: exactly `YYYY-MM-DD` with a valid calendar
date; anything else raises (= `none`). -/
def fromisoformat (s : String) : Option PyDate :=
  match s.toList with
  | [y1, y2, y3, y4, h1, mo1, mo2, h2, d1, d2] =>
    if h1 = '-' ∧ h2 = '-' then
      match digitsVal [y1, y2, y3, y4], digitsVal [mo1, mo2], digitsVal [d1, d2] with
      | some y, some m, some d =>
        if PyDate.Valid ⟨y, m, d⟩ then some ⟨y, m, d⟩ else none
      | _, _, _ => none
    else none
  | _ => none

/-! ## Streak detection (`app.py` 224-251) -/

/-- `day_to_mood[k]` for a key known to be in the dict (the `.getD ""`
default is never reached on dict-shaped inputs). -/
def moodOf (m : List (String × String)) (k : String) : String :=
  (List.lookup k m).getD ""

/-- Parse every key of the map, keeping the original key string alongside
its date (for a strictly-parsed key `k`, `isoformat (fromisoformat k) = k`,
so the kept string is the `isoformat` the source uses for lookups and
output). `none` if any key raises. -/
def parseKeys : List (String × String) → Option (List (PyDate × String))
  | [] => some []
  | (k, _) :: rest =>
    match fromisoformat k, parseKeys rest with
    | some dt, some l => some ((dt, k) :: l)
    | _, _ => none

/-- Sort order on parsed keys: `date` objects compare chronologically,
i.e. by `toordinal`. -/
def dateLe (a b : PyDate × String) : Bool := a.1.toDays ≤ b.1.toDays

/-- The `for d in days[1:]` loop of `compute_streaks` (app.py 239-250),
including the unconditional final close. -/
def streaksGo (m : List (String × String)) :
    List (PyDate × String) → (PyDate × String) → (PyDate × String) → String → Nat →
    List (String × String × String × Nat) → List (String × String × String × Nat)
  | [], start, prev, cur, len, acc => acc ++ [(start.2, prev.2, cur, len)]
  | d :: ds, start, prev, cur, len, acc =>
    let mood := moodOf m d.2
    if d.1.toDays = prev.1.toDays + 1 ∧ mood = cur then
      streaksGo m ds start d cur (len + 1) acc
    else
      streaksGo m ds d d mood 1 (acc ++ [(start.2, prev.2, cur, len)])

/-- `compute_streaks` (app.py 224-251).  Result entries are
`(start.isoformat(), end.isoformat(), mood, length)`. -/
def compute_streaks (day_to_mood : List (String × String)) :
    Option (List (String × String × String × Nat)) :=
  match day_to_mood with
  | [] => some []
  | _ =>
    match parseKeys day_to_mood with
    | none => none
    | some pks =>
      match sortedBy dateLe pks with
      | [] => some []
      | d0 :: rest => some (streaksGo day_to_mood rest d0 d0 (moodOf day_to_mood d0.2) 1 [])

/-! ## Switch detection (`app.py` 254-279) -/

/-- The `for d in days_sorted` loop of `compute_switches`
(app.py 266-277). -/
def switchGo (m : List (String × String)) :
    List String → Option String → List (String × String × String) →
    List (String × String × String)
  | [], _, acc => acc
  | d :: ds, prev_mood, acc =>
    let mood := moodOf m d
    if mood = "neutral" then switchGo m ds prev_mood acc
    else
      match prev_mood with
      | none => switchGo m ds (some mood) acc
      | some pm =>
        if mood ≠ pm then switchGo m ds (some mood) (acc ++ [(d, pm, mood)])
        else switchGo m ds (some pm) acc

/-- `compute_switches` (app.py 254-279): the keys are sorted as strings,
neutral days are skipped, and a switch `(date, from, to)` is recorded
whenever the mood differs from the previous non-neutral mood. -/
def compute_switches (day_to_mood : List (String × String)) :
    List (String × String × String) :=
  match day_to_mood with
  | [] => []
  | _ =>
    let days_sorted := sortedBy strLe (day_to_mood.map Prod.fst)
    switchGo day_to_mood days_sorted none []

/-! ## Calendar rendering (`app.py` 190-221) -/

/-- Python `f"{n:02d}"` for `n < 100`. -/
def pad2 (n : Nat) : String := if n < 10 then "0" ++ toString n else toString n

/-- Python `f"{n:04d}"` for `n < 10000`. -/
def pad4 (n : Nat) : String :=
  if n < 10 then "000" ++ toString n
  else if n < 100 then "00" ++ toString n
  else if n < 1000 then "0" ++ toString n
  else toString n

/-- `calendar.month_name[m]`. -/
def month_name : Nat → String
  | 1 => "January" | 2 => "February" | 3 => "March" | 4 => "April"
  | 5 => "May" | 6 => "June" | 7 => "July" | 8 => "August"
  | 9 => "September" | 10 => "October" | 11 => "November" | 12 => "December"
  | _ => ""

/-- Group a flat day list into weeks of 7 (structural recursion on a
fuel bound, so it evaluates in the kernel; one week consumes at least
one element, so `l.length` fuel always suffices). -/
def chunk7Fuel : Nat → List Nat → List (List Nat)
  | 0, _ => []
  | _, [] => []
  | fuel + 1, x :: xs => ((x :: xs).take 7) :: chunk7Fuel fuel ((x :: xs).drop 7)

/-- Group a flat day list into weeks of 7. -/
def chunk7 (l : List Nat) : List (List Nat) := chunk7Fuel l.length l

/-- `calendar.Calendar(firstweekday=0).monthdayscalendar(y, m)`: weeks of
7 day numbers, Monday first, `0` for cells outside the month. -/
def monthdayscalendar (y m : Nat) : List (List Nat) :=
  let w1 := PyDate.weekday ⟨y, m, 1⟩
  let n := daysInMonth y m
  chunk7 (List.replicate w1 0 ++ (List.range n).map (· + 1) ++
    List.replicate ((7 - (w1 + n) % 7) % 7) 0)

/-- `MOOD_CODES.get(mood, " ") if mood else " "` (app.py 27, 204). -/
def cellCode (mood : Option String) : String :=
  match mood with
  | none => " "
  | some mo =>
    if mo = "" then " "
    else if mo = "high energy" then "H"
    else if mo = "low energy" then "L"
    else if mo = "neutral" then "N"
    else " "

/-- The cell grid built by the week loop of `month_calendar_block`
(app.py 196-206): `"   "` outside the month, else `f"{day:02d}{code}"`. -/
def month_cells (year month : Nat) (day_to_mood : List (String × String)) :
    List (List String) :=
  (monthdayscalendar year month).map (fun week => week.map (fun day =>
    if day = 0 then "   "
    else
      let dstr := pad4 year ++ "-" ++ pad2 month ++ "-" ++ pad2 day
      pad2 day ++ cellCode (List.lookup dstr day_to_mood)))

/-- `month_calendar_block` (app.py 190-207). -/
def month_calendar_block (year month : Nat) (day_to_mood : List (String × String)) :
    String :=
  String.intercalate "\n"
    ((month_name month ++ " " ++ toString year) :: "Mo Tu We Th Fr Sa Su" ::
      (month_cells year month day_to_mood).map (String.intercalate " "))

/-- Python `str.rstrip()` (ASCII whitespace suffices here). -/
def pyRstrip (s : String) : String :=
  ⟨(s.toList.reverse.dropWhile (fun c => c = ' ' ∨ c = '\n' ∨ c = '\t' ∨ c = '\r')).reverse⟩

/-- Python `int(s)` for the digit substrings of a key; raises (= `none`)
on non-digits. -/
def pyInt (s : String) : Option Nat :=
  match s.toList with
  | [] => none
  | l => digitsVal l

/-- Ascending order on `(year, month)` tuples. -/
def ymLe (a b : Nat × Nat) : Bool := a.1 < b.1 ∨ (a.1 = b.1 ∧ a.2 ≤ b.2)

/-- `sorted({(int(d[:4]), int(d[5:7])) for d in keys})` (app.py 214). -/
def monthsOf (day_to_mood : List (String × String)) : Option (List (Nat × Nat)) :=
  let step : Option (List (Nat × Nat)) → String × String → Option (List (Nat × Nat)) :=
    fun acc p =>
      match acc, pyInt (pyTake 4 p.1), pyInt (pySlice 5 7 p.1) with
      | some l, some y, some m => some (l ++ [(y, m)])
      | _, _, _ => none
  (day_to_mood.foldl step (some [])).map (fun l => sortedBy ymLe l.dedup)

/-- `calendar_blocks` (app.py 210-221). -/
def calendar_blocks (day_to_mood : List (String × String)) : Option String :=
  if day_to_mood = [] then some "No dated entries yet."
  else
    (monthsOf day_to_mood).map (fun months =>
      pyRstrip (String.intercalate "\n"
        ("Mood calendar (H=high energy, L=low energy, N=neutral; blank=no entry)" :: "" ::
          (months.map (fun ym =>
            [month_calendar_block ym.1 ym.2 day_to_mood, ""])).flatten)))

/-! ## Report and live-view streak listings (`app.py` 311-317, 423-428) -/

/-- `sorted(streaks, key=lambda x: x[3], reverse=True)` comparison:
descending by length, stable. -/
def lenDesc (a b : String × String × String × Nat) : Bool := b.2.2.2 ≤ a.2.2.2

/-- `sorted(streaks, key=lambda x: x[3], reverse=True)[:k]`. -/
def top_streaks (k : Nat) (streaks : List (String × String × String × Nat)) :
    List (String × String × String × Nat) :=
  (sortedBy lenDesc streaks).take k

/-- One streak line of the report (app.py 315-316). -/
def fmt_streak (x : String × String × String × Nat) : String :=
  let span := if x.1 = x.2.1 then x.1 else x.1 ++ " to " ++ x.2.1
  "- " ++ span ++ ": " ++ x.2.2.1 ++ " (" ++ toString x.2.2.2 ++ " day" ++
    (if x.2.2.2 ≠ 1 then "s" else "") ++ ")"

/-- The streak section of `make_report` (app.py 311-320): header and the
top-10 streaks by length, or the placeholder. -/
def report_streak_lines (streaks : List (String × String × String × Nat)) :
    List String :=
  if streaks = [] then ["Mood streaks: none yet.", ""]
  else "Mood streaks (consecutive days with the same mood label):" ::
    (top_streaks 10 streaks).map fmt_streak ++ [""]

/-- The top-10 streak listing inside the report produced by `make_report`
(app.py 282-284, 313). -/
def make_report_top_streaks (entries : List EntryDict) :
    Option (List (String × String × String × Nat)) :=
  (compute_streaks (daily_moods entries)).map (top_streaks 10)

/-- The top-5 streak listing of the live view (app.py 413, 420, 424). -/
def live_view_top_streaks (entries : List EntryDict) :
    Option (List (String × String × String × Nat)) :=
  (compute_streaks (daily_moods entries)).map (top_streaks 5)

/-- `isinstance(e, dict)` filter on raw records. -/
def getDict : RawRecord → Option EntryDict
  | .dict e => some e
  | .nonDict => none

/-- Ordinal of a streak's reported start date (0 if it does not parse). -/
def startOrd (x : String × String × String × Nat) : Nat :=
  ((fromisoformat x.1).map PyDate.toDays).getD 0

/-- Ordinal of a streak's reported end date (0 if it does not parse). -/
def endOrd (x : String × String × String × Nat) : Nat :=
  ((fromisoformat x.2.1).map PyDate.toDays).getD 0

/-- Invariant of the `daily_moods` fold: keys of `best` are distinct and
are exactly the non-empty entry dates seen so far, and each value is the
`(created_at, mood)` of a created_at-maximal entry for that date. -/
def DMInv (processed : List EntryDict) (best : List (String × String × String)) : Prop :=
  (best.map Prod.fst).Nodup ∧
  (∀ d, (∃ v, (d, v) ∈ best) ↔ ∃ e ∈ processed, truthy e.entry_date = some d) ∧
  (∀ p ∈ best, ∃ e ∈ processed, truthy e.entry_date = some p.1 ∧
    p.2.1 = e.created_at.getD "" ∧ p.2.2 = e.mood.getD "neutral" ∧
    ∀ e2 ∈ processed, truthy e2.entry_date = some p.1 →
      strLe (e2.created_at.getD "") p.2.1 = true)

/-! ## Lemmas: stable insertion sort -/

theorem insertLe_perm (le : α → α → Bool) (x : α) (l : List α) :
    (insertLe le x l).Perm (x :: l) := by
  induction l with
  | nil => simp [insertLe]
  | cons y ys ih =>
    by_cases h : le x y = true
    · simp [insertLe, h]
    · simp only [insertLe, if_neg h]
      exact (ih.cons y).trans (List.Perm.swap x y ys)

theorem sortedBy_perm (le : α → α → Bool) (l : List α) :
    (sortedBy le l).Perm l := by
  induction l with
  | nil => simp [sortedBy]
  | cons x xs ih =>
    exact (insertLe_perm le x (sortedBy le xs)).trans (ih.cons x)

theorem mem_insertLe (le : α → α → Bool) (x : α) (l : List α) (a : α) :
    a ∈ insertLe le x l ↔ a = x ∨ a ∈ l := by
  rw [(insertLe_perm le x l).mem_iff]; simp

theorem insertLe_pairwise (le : α → α → Bool)
    (htr : ∀ a b c, le a b = true → le b c = true → le a c = true)
    (hto : ∀ a b, le a b = false → le b a = true)
    (x : α) (l : List α) (h : l.Pairwise (fun a b => le a b = true)) :
    (insertLe le x l).Pairwise (fun a b => le a b = true) := by
  induction l with
  | nil => simp [insertLe]
  | cons y ys ih =>
    rcases List.pairwise_cons.mp h with ⟨hy, hys⟩
    by_cases hxy : le x y = true
    · simp only [insertLe, if_pos hxy]
      refine List.pairwise_cons.mpr ⟨?_, h⟩
      intro b hb
      rcases List.mem_cons.mp hb with rfl | hb
      · exact hxy
      · exact htr x y b hxy (hy b hb)
    · simp only [insertLe, if_neg hxy]
      refine List.pairwise_cons.mpr ⟨?_, ih hys⟩
      intro b hb
      rcases (mem_insertLe le x ys b).mp hb with hbx | hb
      · subst hbx; exact hto b y (by simpa using hxy)
      · exact hy b hb

theorem sortedBy_pairwise (le : α → α → Bool)
    (htr : ∀ a b c, le a b = true → le b c = true → le a c = true)
    (hto : ∀ a b, le a b = false → le b a = true)
    (l : List α) :
    (sortedBy le l).Pairwise (fun a b => le a b = true) := by
  induction l with
  | nil => simp [sortedBy]
  | cons x xs ih => exact insertLe_pairwise le htr hto x _ ih

/-! ## Lemmas: lexicographic string order -/

theorem lexLe_refl (l : List Char) : lexLe l l = true := by
  induction l with
  | nil => rfl
  | cons a as ih => simp [lexLe, ih]

theorem strLe_refl (s : String) : strLe s s = true := lexLe_refl _

theorem lexLe_total (a b : List Char) : lexLe a b = true ∨ lexLe b a = true := by
  induction a generalizing b with
  | nil => left; rfl
  | cons x xs ih =>
    cases b with
    | nil => right; rfl
    | cons y ys =>
      by_cases h1 : x.toNat < y.toNat
      · left; simp [lexLe, h1]
      · by_cases h2 : y.toNat < x.toNat
        · right; simp [lexLe, h2]
        · rcases ih ys with h | h
          · left; simp [lexLe, h1, h2, h]
          · right; simp [lexLe, h1, h2, h]

theorem lexLe_cons_iff (a b : Char) (as bs : List Char) :
    lexLe (a :: as) (b :: bs) = true ↔
      a.toNat < b.toNat ∨ (a.toNat = b.toNat ∧ lexLe as bs = true) := by
  simp only [lexLe]
  split_ifs with h1 h2
  · exact iff_of_true rfl (Or.inl h1)
  · refine iff_of_false (by simp) ?_
    rintro (h | ⟨h, _⟩) <;> omega
  · have heq : a.toNat = b.toNat := by omega
    simp [heq]

theorem lexLe_trans : ∀ a b c : List Char,
    lexLe a b = true → lexLe b c = true → lexLe a c = true
  | [], _, _, _, _ => rfl
  | _ :: _, [], _, hab, _ => by simp [lexLe] at hab
  | _ :: _, _ :: _, [], _, hbc => by simp [lexLe] at hbc
  | x :: xs, y :: ys, z :: zs, hab, hbc => by
    rw [lexLe_cons_iff] at hab hbc ⊢
    rcases hab with h | ⟨he, hr⟩ <;> rcases hbc with h2 | ⟨he2, hr2⟩
    · left; omega
    · left; omega
    · left; omega
    · right; exact ⟨by omega, lexLe_trans xs ys zs hr hr2⟩

theorem strLe_trans (a b c : String) (h1 : strLe a b = true) (h2 : strLe b c = true) :
    strLe a c = true := lexLe_trans _ _ _ h1 h2

theorem strLe_of_not (a b : String) (h : strLe a b = false) : strLe b a = true := by
  rcases lexLe_total a.toList b.toList with hh | hh
  · exact absurd hh (by simp [strLe] at h; simp [h])
  · exact hh

/-! ## Lemmas: normalization -/

theorem truthy_some (o : Option String) (s : String) (h : truthy o = some s) :
    o = some s ∧ s ≠ "" := by
  cases o with
  | none => simp [truthy] at h
  | some t =>
    by_cases ht : t = ""
    · simp [truthy, ht] at h
    · simp [truthy, ht] at h
      subst h
      exact ⟨rfl, ht⟩

theorem pyTake_ne_empty (n : Nat) (s : String) (hn : 0 < n) (hs : n ≤ pyLen s) :
    pyTake n s ≠ "" := by
  intro h
  have hd : s.toList.take n = [] := congrArg String.data h
  rcases List.take_eq_nil_iff.mp hd with h1 | h1
  · omega
  · unfold pyLen at hs
    rw [h1] at hs
    simp at hs
    omega

/-- Full description of a normalized record: every field the loop writes
is present, `created_at` is non-empty unless `now` is, `entry_date` is
non-empty unless `today` is. -/
theorem norm1_spec (now today : String) (e : EntryDict) :
    ∃ c d, norm1 now today e =
      { created_at := some c, timestamp := e.timestamp, entry_date := some d,
        mood := some (e.mood.getD "neutral"), text := some (e.text.getD ""),
        followup := some (e.followup.getD none) } ∧
      (now ≠ "" → c ≠ "") ∧ (today ≠ "" → d ≠ "") := by
  have hfu : (match e.followup with
      | none => some none
      | some f => some f) = some (e.followup.getD none) := by
    cases e.followup <;> rfl
  cases hca : truthy e.created_at with
  | some c =>
    cases hed : truthy e.entry_date with
    | some d =>
      exact ⟨c, d, by simp [norm1, hca, hed, hfu], fun _ => (truthy_some _ _ hca).2,
        fun _ => (truthy_some _ _ hed).2⟩
    | none =>
      by_cases hlen : pyLen c ≥ 10
      · refine ⟨c, pyTake 10 c, by simp [norm1, hca, hed, hfu, hlen],
          fun _ => (truthy_some _ _ hca).2, fun _ => ?_⟩
        exact pyTake_ne_empty 10 c (by omega) hlen
      · exact ⟨c, today, by simp [norm1, hca, hed, hfu, hlen],
          fun _ => (truthy_some _ _ hca).2, fun h => h⟩
  | none =>
    cases hts : truthy e.timestamp with
    | some c =>
      cases hed : truthy e.entry_date with
      | some d =>
        exact ⟨c, d, by simp [norm1, hca, hts, hed, hfu], fun _ => (truthy_some _ _ hts).2,
          fun _ => (truthy_some _ _ hed).2⟩
      | none =>
        by_cases hlen : pyLen c ≥ 10
        · refine ⟨c, pyTake 10 c, by simp [norm1, hca, hts, hed, hfu, hlen],
            fun _ => (truthy_some _ _ hts).2, fun _ => ?_⟩
          exact pyTake_ne_empty 10 c (by omega) hlen
        · exact ⟨c, today, by simp [norm1, hca, hts, hed, hfu, hlen],
            fun _ => (truthy_some _ _ hts).2, fun h => h⟩
    | none =>
      cases hed : truthy e.entry_date with
      | some d =>
        exact ⟨now, d, by simp [norm1, hca, hts, hed, hfu], fun h => h,
          fun _ => (truthy_some _ _ hed).2⟩
      | none =>
        by_cases hlen : pyLen now ≥ 10
        · refine ⟨now, pyTake 10 now, by simp [norm1, hca, hts, hed, hfu, hlen],
            fun h => h, fun _ => ?_⟩
          exact pyTake_ne_empty 10 now (by omega) hlen
        · exact ⟨now, today, by simp [norm1, hca, hts, hed, hfu, hlen],
            fun h => h, fun h => h⟩

theorem norm1_idem (now today now2 today2 : String) (e : EntryDict)
    (hnow : now ≠ "") (htoday : today ≠ "") :
    norm1 now2 today2 (norm1 now today e) = norm1 now today e := by
  obtain ⟨c, d, heq, hc, hd⟩ := norm1_spec now today e
  rw [heq]
  simp [norm1, truthy, hc hnow, hd htoday]

theorem norm1_norm1_fields (now today now2 today2 : String) (e : EntryDict)
    (htoday : today ≠ "") :
    (norm1 now2 today2 (norm1 now today e)).entry_date = (norm1 now today e).entry_date ∧
    (norm1 now2 today2 (norm1 now today e)).text = (norm1 now today e).text ∧
    (norm1 now2 today2 (norm1 now today e)).mood = (norm1 now today e).mood := by
  obtain ⟨c, d, heq, hc, hd⟩ := norm1_spec now today e
  rw [heq]
  simp [norm1, truthy, hd htoday]

theorem normalize_entries_eq (now today : String) (rs : List RawRecord) :
    normalize_entries now today rs = (rs.filterMap getDict).map (norm1 now today) := by
  induction rs with
  | nil => rfl
  | cons r rest ih =>
    cases r <;> simp [normalize_entries, List.filterMap_cons, getDict, ih]

theorem filterMap_getDict_map_dict (l : List EntryDict) :
    (l.map RawRecord.dict).filterMap getDict = l := by
  induction l with
  | nil => rfl
  | cons e rest ih => simp [getDict, ih]

/-! ## Claim theorems: classifier and normalization -/

/-- C4: `classify_mood` returns "high energy" iff the high-keyword count
(over the lowercased text) strictly exceeds the low-keyword count and is
nonzero, "low energy" in the symmetric case, and "neutral" in every other
case (ties, including zero-zero). -/
theorem C4_classify_mood_decision (t : String) :
    (classify_mood t = "high energy" ↔ lowCount t < highCount t ∧ 0 < highCount t) ∧
    (classify_mood t = "low energy" ↔ highCount t < lowCount t ∧ 0 < lowCount t) ∧
    (classify_mood t = "neutral" ↔
      ¬(lowCount t < highCount t ∧ 0 < highCount t) ∧
      ¬(highCount t < lowCount t ∧ 0 < lowCount t)) := by
  simp only [classify_mood]
  split_ifs with h1 h2
  · refine ⟨iff_of_true rfl h1, iff_of_false (by decide) ?_, iff_of_false (by decide) ?_⟩
    · rintro ⟨ha, _⟩
      rcases h1 with ⟨hb, _⟩
      omega
    · rintro ⟨hA, _⟩
      exact hA h1
  · refine ⟨iff_of_false (by decide) h1, iff_of_true rfl h2, iff_of_false (by decide) ?_⟩
    rintro ⟨_, hB⟩
    exact hB h2
  · exact ⟨iff_of_false (by decide) h1, iff_of_false (by decide) h2,
      iff_of_true rfl ⟨h1, h2⟩⟩

/-- Witness for C4 at a concrete input. -/
theorem C4_classify_mood_decision_witness :
    (classify_mood "tired" = "high energy" ↔
      lowCount "tired" < highCount "tired" ∧ 0 < highCount "tired") ∧
    (classify_mood "tired" = "low energy" ↔
      highCount "tired" < lowCount "tired" ∧ 0 < lowCount "tired") ∧
    (classify_mood "tired" = "neutral" ↔
      ¬(lowCount "tired" < highCount "tired" ∧ 0 < highCount "tired") ∧
      ¬(highCount "tired" < lowCount "tired" ∧ 0 < lowCount "tired")) :=
  C4_classify_mood_decision "tired"

/-- C9: loading never fails: a missing file, unparsable JSON, or a parsed
non-list value all load as the empty journal, and normalization keeps
exactly the dict-shaped records (each normalized), silently dropping the
rest. -/
theorem C9_load_never_fails (now today now2 today2 : String) (rs : List RawRecord) :
    load_entries now today none = [] ∧
    load_entries now today (some .unparsable) = [] ∧
    load_entries now today (some .nonList) = [] ∧
    normalize_entries now2 today2 rs = (rs.filterMap getDict).map (norm1 now2 today2) :=
  ⟨rfl, rfl, rfl, normalize_entries_eq now2 today2 rs⟩

/-- Witness for C9 at concrete inputs. -/
theorem C9_load_never_fails_witness :
    load_entries "n" "t" (some .unparsable) = [] ∧
    normalize_entries "n" "t" [.nonDict, .dict {}] =
      (([.nonDict, .dict {}] : List RawRecord).filterMap getDict).map (norm1 "n" "t") := by
  have h := C9_load_never_fails "n" "t" "n" "t" [.nonDict, .dict {}]
  exact ⟨h.2.1, h.2.2.2⟩

/-- C5: round trip through storage: saving a normalized entry list and
reloading it (parse then normalize again) leaves every entry's
`entry_date`, `text` and `mood` unchanged, entry for entry.
(`today ≠ ""` holds for every real `date.today().isoformat()`.) -/
theorem C5_round_trip (now today now2 today2 : String) (es : List RawRecord)
    (htoday : today ≠ "") :
    (load_entries now2 today2 (some (save_entries (normalize_entries now today es)))).map
        (fun e => (e.entry_date, e.text, e.mood)) =
      (normalize_entries now today es).map (fun e => (e.entry_date, e.text, e.mood)) := by
  simp only [load_entries, save_entries]
  rw [normalize_entries_eq now2 today2, filterMap_getDict_map_dict, List.map_map]
  apply List.map_congr_left
  intro e he
  rw [normalize_entries_eq] at he
  obtain ⟨a, ha, rfl⟩ := List.mem_map.mp he
  obtain ⟨h1, h2, h3⟩ := norm1_norm1_fields now today now2 today2 a htoday
  simp [h1, h2, h3]

/-- Witness for C5 at a concrete input. -/
theorem C5_round_trip_witness :
    (load_entries "b" "c" (some (save_entries
        (normalize_entries "a" "2024-01-02" [RawRecord.dict {}])))).map
        (fun e => (e.entry_date, e.text, e.mood)) =
      (normalize_entries "a" "2024-01-02" [RawRecord.dict {}]).map
        (fun e => (e.entry_date, e.text, e.mood)) :=
  C5_round_trip "a" "2024-01-02" "b" "c" [RawRecord.dict {}] (by decide)

/-- C8: normalization is idempotent: re-normalizing an already-normalized
entry list changes no field of any entry and neither adds nor drops
entries.  (`now ≠ ""` and `today ≠ ""` hold for the real
`datetime.now()`/`date.today()` strings.) -/
theorem C8_normalize_idempotent (now today now2 today2 : String) (es : List RawRecord)
    (hnow : now ≠ "") (htoday : today ≠ "") :
    normalize_entries now2 today2 ((normalize_entries now today es).map RawRecord.dict) =
      normalize_entries now today es := by
  rw [normalize_entries_eq now2 today2, filterMap_getDict_map_dict,
    normalize_entries_eq now today, List.map_map]
  apply List.map_congr_left
  intro a ha
  exact norm1_idem now today now2 today2 a hnow htoday

/-- Witness for C8 at a concrete input. -/
theorem C8_normalize_idempotent_witness :
    normalize_entries "x" "y"
        ((normalize_entries "a" "2024-01-02" [RawRecord.dict {}, RawRecord.nonDict]).map
          RawRecord.dict) =
      normalize_entries "a" "2024-01-02" [RawRecord.dict {}, RawRecord.nonDict] :=
  C8_normalize_idempotent "a" "2024-01-02" "x" "y" [RawRecord.dict {}, RawRecord.nonDict]
    (by decide) (by decide)

/-! ## Lemmas: streak and switch loops -/

theorem parseKeys_length (m : List (String × String)) :
    ∀ l, parseKeys m = some l → l.length = m.length := by
  induction m with
  | nil =>
    intro l h
    simp [parseKeys] at h
    simp [← h]
  | cons p rest ih =>
    intro l h
    obtain ⟨k, mo⟩ := p
    simp only [parseKeys] at h
    cases hp : fromisoformat k with
    | none => rw [hp] at h; simp at h
    | some dt =>
      rw [hp] at h
      cases hr : parseKeys rest with
      | none => rw [hr] at h; simp at h
      | some l2 =>
        rw [hr] at h
        simp at h
        subst h
        simp [ih l2 hr]

theorem streaksGo_ne_nil (m : List (String × String)) :
    ∀ (ds : List (PyDate × String)) start prev cur len acc,
      streaksGo m ds start prev cur len acc ≠ [] := by
  intro ds
  induction ds with
  | nil => intro start prev cur len acc; simp [streaksGo]
  | cons d ds ih =>
    intro start prev cur len acc
    simp only [streaksGo]
    split_ifs with h
    · exact ih start d cur (len + 1) acc
    · exact ih d d (moodOf m d.2) 1 (acc ++ [(start.2, prev.2, cur, len)])

theorem switchGo_not_neutral (m : List (String × String)) :
    ∀ (ds : List String) prev acc,
      (∀ x ∈ acc, x.2.1 ≠ "neutral" ∧ x.2.2 ≠ "neutral") →
      (∀ pm, prev = some pm → pm ≠ "neutral") →
      ∀ x ∈ switchGo m ds prev acc, x.2.1 ≠ "neutral" ∧ x.2.2 ≠ "neutral" := by
  intro ds
  induction ds with
  | nil =>
    intro prev acc hacc _ x hx
    exact hacc x hx
  | cons d ds ih =>
    intro prev acc hacc hprev x hx
    cases prev with
    | none =>
      simp only [switchGo] at hx
      by_cases hmood : moodOf m d = "neutral"
      · rw [if_pos hmood] at hx
        exact ih none acc hacc hprev x hx
      · rw [if_neg hmood] at hx
        refine ih _ acc hacc ?_ x hx
        intro pm h
        cases h
        exact hmood
    | some pm =>
      simp only [switchGo] at hx
      by_cases hmood : moodOf m d = "neutral"
      · rw [if_pos hmood] at hx
        exact ih (some pm) acc hacc hprev x hx
      · rw [if_neg hmood] at hx
        by_cases hne : moodOf m d ≠ pm
        · rw [if_pos hne] at hx
          refine ih _ _ ?_ ?_ x hx
          · intro y hy
            rcases List.mem_append.mp hy with hy | hy
            · exact hacc y hy
            · simp at hy
              subst hy
              exact ⟨hprev pm rfl, hmood⟩
          · intro q hq
            cases hq
            exact hmood
        · rw [if_neg hne] at hx
          exact ih _ acc hacc hprev x hx

/-! ## Claim theorems: streaks, switches, calendar -/

/-- C1: on six consecutive days labelled H,H,L,L,L,N the detector returns
exactly the three streaks (2 H, 3 L, 1 N) in ascending date order; and in
general the final running segment is always closed, so a non-empty map
yields at least one streak (length-1 segments included). -/
theorem C1_compute_streaks :
    compute_streaks [("2024-01-01", "high energy"), ("2024-01-02", "high energy"),
        ("2024-01-03", "low energy"), ("2024-01-04", "low energy"),
        ("2024-01-05", "low energy"), ("2024-01-06", "neutral")] =
      some [("2024-01-01", "2024-01-02", "high energy", 2),
        ("2024-01-03", "2024-01-05", "low energy", 3),
        ("2024-01-06", "2024-01-06", "neutral", 1)] ∧
    (∀ m out, compute_streaks m = some out → m ≠ [] → out ≠ []) := by
  constructor
  · decide
  · intro m out h hne
    cases m with
    | nil => exact absurd rfl hne
    | cons p rest =>
      cases hpk : parseKeys (p :: rest) with
      | none => simp [compute_streaks, hpk] at h
      | some pks =>
        cases hs : sortedBy dateLe pks with
        | nil =>
          have h1 := parseKeys_length (p :: rest) pks hpk
          have h2 := (sortedBy_perm dateLe pks).length_eq
          rw [hs] at h2
          simp at h1 h2
          omega
        | cons d0 ds =>
          simp only [compute_streaks, hpk, hs, Option.some.injEq] at h
          rw [← h]
          exact streaksGo_ne_nil _ _ _ _ _ _ _

/-- Witness for the general conjunct of C1 at a concrete input. -/
theorem C1_compute_streaks_witness :
    ([("2024-01-07", "2024-01-07", "neutral", 1)] :
      List (String × String × String × Nat)) ≠ [] :=
  C1_compute_streaks.2 [("2024-01-07", "neutral")]
    [("2024-01-07", "2024-01-07", "neutral", 1)] (by decide) (by decide)

/-- C3: on six consecutive days labelled H,N,L,L,N,H the detector returns
exactly two switches, at the first L (H to L) and the final H (L to H);
and in general no recorded switch has "neutral" as its from- or to-state
(neutral days are skipped, never boundaries). -/
theorem C3_compute_switches :
    compute_switches [("2024-01-01", "high energy"), ("2024-01-02", "neutral"),
        ("2024-01-03", "low energy"), ("2024-01-04", "low energy"),
        ("2024-01-05", "neutral"), ("2024-01-06", "high energy")] =
      [("2024-01-03", "high energy", "low energy"),
        ("2024-01-06", "low energy", "high energy")] ∧
    (∀ m x, x ∈ compute_switches m → x.2.1 ≠ "neutral" ∧ x.2.2 ≠ "neutral") := by
  constructor
  · decide
  · intro m x hx
    cases m with
    | nil => simp [compute_switches] at hx
    | cons p rest =>
      simp only [compute_switches] at hx
      exact switchGo_not_neutral _ _ _ _ (by simp) (by simp) x hx

/-- Witness for the general conjunct of C3 at a concrete input. -/
theorem C3_compute_switches_witness :
    ("2024-01-03", "high energy", "low energy").2.1 ≠ "neutral" ∧
    ("2024-01-03", "high energy", "low energy").2.2 ≠ "neutral" :=
  C3_compute_switches.2
    [("2024-01-01", "high energy"), ("2024-01-03", "low energy")]
    ("2024-01-03", "high energy", "low energy") (by decide)

/-- C6: an empty day-to-mood map renders as the fixed placeholder, never
an empty document; and for January 2024 with a single high-energy entry
on day 15 the day-15 cell is "15H" while every other in-month cell is the
two-digit zero-padded day followed by a blank code character. -/
theorem C6_calendar_blocks :
    calendar_blocks [] = some "No dated entries yet." ∧
    month_cells 2024 1 [("2024-01-15", "high energy")] =
      [["01 ", "02 ", "03 ", "04 ", "05 ", "06 ", "07 "],
       ["08 ", "09 ", "10 ", "11 ", "12 ", "13 ", "14 "],
       ["15H", "16 ", "17 ", "18 ", "19 ", "20 ", "21 "],
       ["22 ", "23 ", "24 ", "25 ", "26 ", "27 ", "28 "],
       ["29 ", "30 ", "31 ", "   ", "   ", "   ", "   "]] := by
  constructor
  · rfl
  · decide

/-! ## Lemmas: association-list dictionaries -/

theorem lookup_mem (k : String) (v : β) :
    ∀ l : List (String × β), List.lookup k l = some v → (k, v) ∈ l := by
  intro l
  induction l with
  | nil => intro h; simp [List.lookup] at h
  | cons q rest ih =>
    intro h
    obtain ⟨k0, v0⟩ := q
    rw [List.lookup_cons] at h
    by_cases hk : k = k0
    · subst hk
      simp at h
      subst h
      exact List.mem_cons_self _ _
    · have hb : (k == k0) = false := by simpa using hk
      rw [hb] at h
      exact List.mem_cons.mpr (Or.inr (ih h))

theorem lookup_none_not_mem (k : String) :
    ∀ l : List (String × β), List.lookup k l = none → k ∉ l.map Prod.fst := by
  intro l
  induction l with
  | nil => intro _; simp
  | cons q rest ih =>
    intro h
    obtain ⟨k0, v0⟩ := q
    rw [List.lookup_cons] at h
    by_cases hk : k = k0
    · subst hk; simp at h
    · have hb : (k == k0) = false := by simpa using hk
      rw [hb] at h
      simp only [List.map_cons, List.mem_cons]
      rintro (hc | hc)
      · exact hk hc
      · exact ih h hc

theorem dictSet_not_mem (k : String) (v : β) :
    ∀ l : List (String × β), k ∉ l.map Prod.fst → dictSet k v l = l ++ [(k, v)] := by
  intro l
  induction l with
  | nil => intro _; rfl
  | cons q rest ih =>
    intro h
    obtain ⟨k0, v0⟩ := q
    have hk : ¬ k = k0 := fun hc => h (by simp [hc])
    have h2 : k ∉ rest.map Prod.fst := fun hc => h (by rw [List.map_cons]; exact List.mem_cons.mpr (Or.inr hc))
    simp only [dictSet, if_neg (fun hc : k0 = k => hk hc.symm)]
    rw [ih h2]
    rfl

theorem dictSet_map_fst_of_mem (k : String) (v : β) :
    ∀ l : List (String × β), k ∈ l.map Prod.fst →
      (dictSet k v l).map Prod.fst = l.map Prod.fst := by
  intro l
  induction l with
  | nil => intro h; simp at h
  | cons q rest ih =>
    intro h
    obtain ⟨k0, v0⟩ := q
    by_cases hk : k0 = k
    · simp [dictSet, hk]
    · have h2 : k ∈ rest.map Prod.fst := by
        simp only [List.map_cons, List.mem_cons] at h
        rcases h with h | h
        · exact absurd h.symm hk
        · exact h
      simp only [dictSet, if_neg hk, List.map_cons, ih h2]

theorem mem_dictSet_iff (k : String) (v : β) :
    ∀ l : List (String × β), (l.map Prod.fst).Nodup →
      ∀ p, p ∈ dictSet k v l ↔ p = (k, v) ∨ (p ∈ l ∧ p.1 ≠ k) := by
  intro l
  induction l with
  | nil => intro _ p; simp [dictSet]
  | cons q rest ih =>
    intro hnd p
    obtain ⟨k0, v0⟩ := q
    rw [List.map_cons] at hnd
    obtain ⟨hh, ht⟩ := List.nodup_cons.mp hnd
    by_cases hk : k0 = k
    · subst hk
      simp only [dictSet, if_pos rfl]
      constructor
      · intro h
        rcases List.mem_cons.mp h with h | h
        · exact Or.inl h
        · refine Or.inr ⟨List.mem_cons.mpr (Or.inr h), fun hpk => ?_⟩
          have hm := List.mem_map_of_mem Prod.fst h
          rw [hpk] at hm
          exact hh hm
      · rintro (h | ⟨h, hpk⟩)
        · exact List.mem_cons.mpr (Or.inl h)
        · rcases List.mem_cons.mp h with h | h
          · exact absurd (by rw [h]) hpk
          · exact List.mem_cons.mpr (Or.inr h)
    · simp only [dictSet, if_neg hk]
      constructor
      · intro h
        rcases List.mem_cons.mp h with h | h
        · refine Or.inr ⟨List.mem_cons.mpr (Or.inl h), fun hpk => ?_⟩
          rw [h] at hpk
          exact hk hpk
        · rcases (ih ht p).mp h with h | ⟨h1, h2⟩
          · exact Or.inl h
          · exact Or.inr ⟨List.mem_cons.mpr (Or.inr h1), h2⟩
      · rintro (h | ⟨h, hpk⟩)
        · exact List.mem_cons.mpr (Or.inr ((ih ht p).mpr (Or.inl h)))
        · rcases List.mem_cons.mp h with h | h
          · exact List.mem_cons.mpr (Or.inl h)
          · exact List.mem_cons.mpr (Or.inr ((ih ht p).mpr (Or.inr ⟨h, hpk⟩)))

theorem nodup_keys_eq :
    ∀ l : List (String × β), (l.map Prod.fst).Nodup →
      ∀ (k : String) (v1 v2 : β), (k, v1) ∈ l → (k, v2) ∈ l → v1 = v2 := by
  intro l
  induction l with
  | nil => intro _ k v1 v2 h1; simp at h1
  | cons q rest ih =>
    intro hnd k v1 v2 h1 h2
    obtain ⟨k0, v0⟩ := q
    rw [List.map_cons] at hnd
    obtain ⟨hh, ht⟩ := List.nodup_cons.mp hnd
    rcases List.mem_cons.mp h1 with e1 | e1 <;> rcases List.mem_cons.mp h2 with e2 | e2
    · exact (Prod.ext_iff.mp (e1.trans e2.symm)).2
    · have hm := List.mem_map_of_mem Prod.fst e2
      rw [show k = k0 from (Prod.ext_iff.mp e1).1] at hm
      exact absurd hm hh
    · have hm := List.mem_map_of_mem Prod.fst e1
      rw [show k = k0 from (Prod.ext_iff.mp e2).1] at hm
      exact absurd hm hh
    · exact ih ht k v1 v2 e1 e2

/-! ## Lemmas: the daily aggregation invariant -/

theorem DMInv_nil : DMInv [] [] := by
  refine ⟨List.nodup_nil, ?_, ?_⟩
  · intro d; simp
  · intro p hp; simp at hp

theorem DMInv_step (processed : List EntryDict) (best : List (String × String × String))
    (e : EntryDict) (h : DMInv processed best) :
    DMInv (processed ++ [e]) (daily_step best e) := by
  obtain ⟨hnd, hkeys, hwin⟩ := h
  cases hed : truthy e.entry_date with
  | none =>
    simp only [daily_step, hed]
    refine ⟨hnd, ?_, ?_⟩
    · intro d
      rw [hkeys d]
      constructor
      · rintro ⟨e2, he2, hd2⟩
        exact ⟨e2, List.mem_append.mpr (Or.inl he2), hd2⟩
      · rintro ⟨e2, he2, hd2⟩
        rcases List.mem_append.mp he2 with hm | hm
        · exact ⟨e2, hm, hd2⟩
        · simp at hm
          subst hm
          rw [hed] at hd2
          cases hd2
    · intro p hp
      obtain ⟨e0, he0, hd0, hca, hmo, hmax⟩ := hwin p hp
      refine ⟨e0, List.mem_append.mpr (Or.inl he0), hd0, hca, hmo, ?_⟩
      intro e2 he2 hd2
      rcases List.mem_append.mp he2 with hm | hm
      · exact hmax e2 hm hd2
      · simp at hm
        subst hm
        rw [hed] at hd2
        cases hd2
  | some d =>
    cases hlk : List.lookup d best with
    | none =>
      simp only [daily_step, hed, hlk]
      have hdnotin : d ∉ best.map Prod.fst := lookup_none_not_mem d best hlk
      rw [dictSet_not_mem d _ best hdnotin]
      refine ⟨?_, ?_, ?_⟩
      · rw [List.map_append]
        refine List.Nodup.append hnd (by simp) ?_
        intro a ha hb
        simp at hb
        subst hb
        exact hdnotin ha
      · intro d0
        constructor
        · rintro ⟨v, hv⟩
          rcases List.mem_append.mp hv with hm | hm
          · obtain ⟨e2, he2, hd2⟩ := (hkeys d0).mp ⟨v, hm⟩
            exact ⟨e2, List.mem_append.mpr (Or.inl he2), hd2⟩
          · simp at hm
            refine ⟨e, List.mem_append.mpr (Or.inr (by simp)), ?_⟩
            rw [hed, hm.1]
        · rintro ⟨e2, he2, hd2⟩
          rcases List.mem_append.mp he2 with hm | hm
          · obtain ⟨v, hv⟩ := (hkeys d0).mpr ⟨e2, hm, hd2⟩
            exact ⟨v, List.mem_append.mpr (Or.inl hv)⟩
          · simp at hm
            subst hm
            rw [hed] at hd2
            cases hd2
            exact ⟨_, List.mem_append.mpr (Or.inr (List.mem_singleton.mpr rfl))⟩
      · intro p hp
        rcases List.mem_append.mp hp with hm | hm
        · obtain ⟨e0, he0, hd0, hca, hmo, hmax⟩ := hwin p hm
          refine ⟨e0, List.mem_append.mpr (Or.inl he0), hd0, hca, hmo, ?_⟩
          intro e2 he2 hd2
          rcases List.mem_append.mp he2 with hm2 | hm2
          · exact hmax e2 hm2 hd2
          · simp at hm2
            subst hm2
            rw [hed] at hd2
            cases hd2
            exact absurd (List.mem_map_of_mem Prod.fst hm) hdnotin
        · simp at hm
          subst hm
          refine ⟨e, List.mem_append.mpr (Or.inr (by simp)), by simpa using hed,
            rfl, rfl, ?_⟩
          intro e2 he2 hd2
          rcases List.mem_append.mp he2 with hm2 | hm2
          · obtain ⟨v, hv⟩ := (hkeys d).mpr ⟨e2, hm2, by simpa using hd2⟩
            exact absurd (List.mem_map_of_mem Prod.fst hv) hdnotin
          · simp at hm2
            subst hm2
            exact strLe_refl _
    | some v0 =>
      obtain ⟨ca0, mo0⟩ := v0
      simp only [daily_step, hed, hlk]
      have hmem0 : (d, (ca0, mo0)) ∈ best := lookup_mem d _ best hlk
      have hdin : d ∈ best.map Prod.fst := List.mem_map_of_mem Prod.fst hmem0
      by_cases hcmp : strLe ca0 (e.created_at.getD "") = true
      · rw [if_pos hcmp]
        refine ⟨?_, ?_, ?_⟩
        · rw [dictSet_map_fst_of_mem _ _ best hdin]
          exact hnd
        · intro d0
          constructor
          · rintro ⟨v, hv⟩
            rcases (mem_dictSet_iff _ _ best hnd _).mp hv with hm | ⟨hm, hne⟩
            · have hd0 : d0 = d := (Prod.ext_iff.mp hm).1
              subst hd0
              exact ⟨e, List.mem_append.mpr (Or.inr (by simp)), hed⟩
            · obtain ⟨e2, he2, hd2⟩ := (hkeys d0).mp ⟨v, hm⟩
              exact ⟨e2, List.mem_append.mpr (Or.inl he2), hd2⟩
          · rintro ⟨e2, he2, hd2⟩
            rcases List.mem_append.mp he2 with hm | hm
            · obtain ⟨v, hv⟩ := (hkeys d0).mpr ⟨e2, hm, hd2⟩
              by_cases hd0 : d0 = d
              · subst hd0
                exact ⟨_, (mem_dictSet_iff _ _ best hnd _).mpr (Or.inl rfl)⟩
              · exact ⟨v, (mem_dictSet_iff _ _ best hnd _).mpr (Or.inr ⟨hv, hd0⟩)⟩
            · simp at hm
              subst hm
              rw [hed] at hd2
              cases hd2
              exact ⟨_, (mem_dictSet_iff _ _ best hnd _).mpr (Or.inl rfl)⟩
        · intro p hp
          rcases (mem_dictSet_iff _ _ best hnd _).mp hp with hm | ⟨hm, hne⟩
          · subst hm
            refine ⟨e, List.mem_append.mpr (Or.inr (by simp)), by simpa using hed,
              rfl, rfl, ?_⟩
            intro e2 he2 hd2
            rcases List.mem_append.mp he2 with hm2 | hm2
            · obtain ⟨e0, he0, hd0, hca, hmo, hmax⟩ := hwin _ hmem0
              have h2 := hmax e2 hm2 (by simpa using hd2)
              exact strLe_trans _ _ _ h2 hcmp
            · simp at hm2
              subst hm2
              exact strLe_refl _
          · obtain ⟨e0, he0, hd0, hca, hmo, hmax⟩ := hwin p hm
            refine ⟨e0, List.mem_append.mpr (Or.inl he0), hd0, hca, hmo, ?_⟩
            intro e2 he2 hd2
            rcases List.mem_append.mp he2 with hm2 | hm2
            · exact hmax e2 hm2 hd2
            · simp at hm2
              subst hm2
              rw [hed] at hd2
              exact absurd (Option.some.inj hd2).symm hne
      · rw [if_neg hcmp]
        refine ⟨hnd, ?_, ?_⟩
        · intro d0
          constructor
          · rintro ⟨v, hv⟩
            obtain ⟨e2, he2, hd2⟩ := (hkeys d0).mp ⟨v, hv⟩
            exact ⟨e2, List.mem_append.mpr (Or.inl he2), hd2⟩
          · rintro ⟨e2, he2, hd2⟩
            rcases List.mem_append.mp he2 with hm | hm
            · exact (hkeys d0).mpr ⟨e2, hm, hd2⟩
            · simp at hm
              subst hm
              rw [hed] at hd2
              cases hd2
              exact ⟨_, hmem0⟩
        · intro p hp
          obtain ⟨e0, he0, hd0, hca, hmo, hmax⟩ := hwin p hp
          refine ⟨e0, List.mem_append.mpr (Or.inl he0), hd0, hca, hmo, ?_⟩
          intro e2 he2 hd2
          rcases List.mem_append.mp he2 with hm2 | hm2
          · exact hmax e2 hm2 hd2
          · simp at hm2
            subst hm2
            rw [hed] at hd2
            have hdp : d = p.1 := Option.some.inj hd2
            have hpv : p.2 = (ca0, mo0) :=
              nodup_keys_eq best hnd p.1 p.2 (ca0, mo0) hp (hdp ▸ hmem0)
            rw [hpv]
            exact strLe_of_not ca0 _ (by simpa using hcmp)

theorem DMInv_foldl :
    ∀ (entries processed : List EntryDict) (best : List (String × String × String)),
      DMInv processed best →
      DMInv (processed ++ entries) (entries.foldl daily_step best) := by
  intro entries
  induction entries with
  | nil =>
    intro processed best h
    simpa using h
  | cons e rest ih =>
    intro processed best h
    have h3 := ih (processed ++ [e]) (daily_step best e) (DMInv_step processed best e h)
    rw [List.append_assoc] at h3
    simpa using h3

theorem daily_moods_spec (entries : List EntryDict) :
    ((daily_moods entries).map Prod.fst).Nodup ∧
    (∀ d, (∃ mo, (d, mo) ∈ daily_moods entries) ↔
      ∃ e ∈ entries, truthy e.entry_date = some d) ∧
    (∀ p ∈ daily_moods entries, ∃ e ∈ entries,
      truthy e.entry_date = some p.1 ∧ p.2 = e.mood.getD "neutral" ∧
      ∀ e2 ∈ entries, truthy e2.entry_date = some p.1 →
        strLe (e2.created_at.getD "") (e.created_at.getD "") = true) := by
  have h := DMInv_foldl entries [] [] DMInv_nil
  rw [List.nil_append] at h
  obtain ⟨hnd, hkeys, hwin⟩ := h
  unfold daily_moods
  refine ⟨?_, ?_, ?_⟩
  · rw [List.map_map]
    exact hnd
  · intro d
    constructor
    · rintro ⟨mo, hm⟩
      obtain ⟨p, hp, hgp⟩ := List.mem_map.mp hm
      have hd : p.1 = d := (Prod.ext_iff.mp hgp).1
      exact (hkeys d).mp ⟨p.2, by rw [← hd]; exact hp⟩
    · intro hh
      obtain ⟨v, hv⟩ := (hkeys d).mpr hh
      exact ⟨v.2, List.mem_map.mpr ⟨(d, v), hv, rfl⟩⟩
  · intro q hq
    obtain ⟨p, hp, hgp⟩ := List.mem_map.mp hq
    obtain ⟨e0, he0, hd0, hca, hmo, hmax⟩ := hwin p hp
    rw [← hgp]
    refine ⟨e0, he0, hd0, hmo, ?_⟩
    intro e2 he2 hd2
    rw [← hca]
    exact hmax e2 he2 hd2

/-! ## Claim theorem: daily aggregation -/

/-- C2: `daily_moods` has at most one mood per date (its keys are
duplicate-free and are exactly the non-empty `entry_date` values of the
entries), and for each date the chosen mood comes from an entry whose
`created_at` is lexicographically greater than or equal to that of every
other entry sharing the date. -/
theorem C2_daily_moods (entries : List EntryDict) :
    ((daily_moods entries).map Prod.fst).Nodup ∧
    (∀ d, (∃ mo, (d, mo) ∈ daily_moods entries) ↔
      ∃ e ∈ entries, truthy e.entry_date = some d) ∧
    (∀ p ∈ daily_moods entries, ∃ e ∈ entries,
      truthy e.entry_date = some p.1 ∧ p.2 = e.mood.getD "neutral" ∧
      ∀ e2 ∈ entries, truthy e2.entry_date = some p.1 →
        strLe (e2.created_at.getD "") (e.created_at.getD "") = true) :=
  daily_moods_spec entries

/-- Witness for C2 at a concrete two-entry input sharing one date. -/
theorem C2_daily_moods_witness :
    (let L : List EntryDict := [
      { entry_date := some "2024-01-01", created_at := some "2024-01-01 10:00:00",
        mood := some "low energy" },
      { entry_date := some "2024-01-01", created_at := some "2024-01-01 12:00:00",
        mood := some "high energy" }]
     ((daily_moods L).map Prod.fst).Nodup ∧
     (∀ d, (∃ mo, (d, mo) ∈ daily_moods L) ↔ ∃ e ∈ L, truthy e.entry_date = some d) ∧
     (∀ p ∈ daily_moods L, ∃ e ∈ L,
        truthy e.entry_date = some p.1 ∧ p.2 = e.mood.getD "neutral" ∧
        ∀ e2 ∈ L, truthy e2.entry_date = some p.1 →
          strLe (e2.created_at.getD "") (e.created_at.getD "") = true)) :=
  C2_daily_moods _

/-! ## Lemmas: report tops -/

theorem parseKeys_isSome (m : List (String × String))
    (h : ∀ p ∈ m, (fromisoformat p.1).isSome) : ∃ l, parseKeys m = some l := by
  induction m with
  | nil => exact ⟨[], rfl⟩
  | cons p rest ih =>
    obtain ⟨k, mo⟩ := p
    obtain ⟨dt, hdt⟩ := Option.isSome_iff_exists.mp (h (k, mo) (List.mem_cons_self _ _))
    obtain ⟨l, hl⟩ := ih (fun q hq => h q (List.mem_cons.mpr (Or.inr hq)))
    exact ⟨(dt, k) :: l, by simp [parseKeys, hdt, hl]⟩

theorem compute_streaks_isSome (m : List (String × String))
    (h : ∀ p ∈ m, (fromisoformat p.1).isSome) :
    ∃ out, compute_streaks m = some out := by
  cases m with
  | nil => exact ⟨[], rfl⟩
  | cons p rest =>
    obtain ⟨l, hl⟩ := parseKeys_isSome _ h
    cases hs : sortedBy dateLe l with
    | nil => exact ⟨[], by simp [compute_streaks, hl, hs]⟩
    | cons d0 ds =>
      refine ⟨streaksGo (p :: rest) ds d0 d0 (moodOf (p :: rest) d0.2) 1 [], ?_⟩
      simp [compute_streaks, hl, hs]

theorem top_streaks_spec (k : Nat) (st : List (String × String × String × Nat)) :
    (top_streaks k st).length ≤ k ∧
    (top_streaks k st).Pairwise (fun a b => b.2.2.2 ≤ a.2.2.2) ∧
    ∀ x ∈ top_streaks k st, x ∈ st := by
  refine ⟨List.length_take_le _ _, ?_, ?_⟩
  · have hp := sortedBy_pairwise lenDesc
      (fun a b c hab hbc => by
        simp only [lenDesc, decide_eq_true_eq] at *
        omega)
      (fun a b hab => by
        simp only [lenDesc, decide_eq_false_iff_not, decide_eq_true_eq] at *
        omega)
      st
    have hp2 : (sortedBy lenDesc st).Pairwise (fun a b => b.2.2.2 ≤ a.2.2.2) :=
      hp.imp (fun h => by simpa [lenDesc] using h)
    exact hp2.sublist (List.take_sublist _ _)
  · intro x hx
    have hx2 : x ∈ sortedBy lenDesc st := List.mem_of_mem_take hx
    exact (sortedBy_perm lenDesc st).mem_iff.mp hx2

/-! ## Claim theorem: report and live-view streak listings -/

/-- C7: for every entry collection (whose non-empty entry dates are valid
ISO dates, as the app saves them), the report lists the computed streaks
sorted by descending length capped at 10, and the live view capped at 5:
both listings contain only computed streaks, in descending length order.
-/
theorem C7_report_top_streaks (entries : List EntryDict)
    (hval : ∀ e ∈ entries, ∀ d, truthy e.entry_date = some d →
      (fromisoformat d).isSome) :
    ∃ st, compute_streaks (daily_moods entries) = some st ∧
      make_report_top_streaks entries = some (top_streaks 10 st) ∧
      live_view_top_streaks entries = some (top_streaks 5 st) ∧
      (top_streaks 10 st).length ≤ 10 ∧
      (top_streaks 10 st).Pairwise (fun a b => b.2.2.2 ≤ a.2.2.2) ∧
      (∀ x ∈ top_streaks 10 st, x ∈ st) ∧
      (top_streaks 5 st).length ≤ 5 ∧
      (top_streaks 5 st).Pairwise (fun a b => b.2.2.2 ≤ a.2.2.2) ∧
      (∀ x ∈ top_streaks 5 st, x ∈ st) := by
  have hkeys : ∀ p ∈ daily_moods entries, (fromisoformat p.1).isSome := by
    intro p hp
    obtain ⟨e, he, hd, _⟩ := (daily_moods_spec entries).2.2 p hp
    exact hval e he p.1 hd
  obtain ⟨st, hst⟩ := compute_streaks_isSome _ hkeys
  obtain ⟨hl10, hp10, hm10⟩ := top_streaks_spec 10 st
  obtain ⟨hl5, hp5, hm5⟩ := top_streaks_spec 5 st
  exact ⟨st, hst, by simp [make_report_top_streaks, hst],
    by simp [live_view_top_streaks, hst], hl10, hp10, hm10, hl5, hp5, hm5⟩

/-- Witness for C7 at a concrete one-entry input. -/
theorem C7_report_top_streaks_witness :
    ∃ st, compute_streaks (daily_moods [{ entry_date := some "2024-01-01" }]) = some st ∧
      make_report_top_streaks [{ entry_date := some "2024-01-01" }] =
        some (top_streaks 10 st) ∧
      live_view_top_streaks [{ entry_date := some "2024-01-01" }] =
        some (top_streaks 5 st) ∧
      (top_streaks 10 st).length ≤ 10 ∧
      (top_streaks 10 st).Pairwise (fun a b => b.2.2.2 ≤ a.2.2.2) ∧
      (∀ x ∈ top_streaks 10 st, x ∈ st) ∧
      (top_streaks 5 st).length ≤ 5 ∧
      (top_streaks 5 st).Pairwise (fun a b => b.2.2.2 ≤ a.2.2.2) ∧
      (∀ x ∈ top_streaks 5 st, x ∈ st) := by
  refine C7_report_top_streaks _ ?_
  intro e he d hd
  simp at he
  subst he
  simp [truthy] at hd
  subst hd
  decide

/-! ## Lemmas: ISO date parsing -/

theorem digitVal_elim (c : Char) (v : Nat) (h : digitVal c = some v) :
    v ≤ 9 ∧ c.toNat = v + 48 := by
  unfold digitVal at h
  split_ifs at h with hc
  have hv : c.toNat - 48 = v := by simpa using h
  omega

theorem digitsVal_lt : ∀ (cs : List Char) (v : Nat),
    digitsVal cs = some v → v < 10 ^ cs.length := by
  intro cs
  induction cs with
  | nil =>
    intro v h
    have hv : v = 0 := by simpa [digitsVal] using h.symm
    subst hv
    norm_num
  | cons c rest ih =>
    intro v h
    simp only [digitsVal] at h
    cases hc : digitVal c with
    | none => rw [hc] at h; simp at h
    | some vc =>
      rw [hc] at h
      cases hr : digitsVal rest with
      | none => rw [hr] at h; simp at h
      | some acc =>
        rw [hr] at h
        simp at h
        obtain ⟨hv9, _⟩ := digitVal_elim c vc hc
        have hacc := ih acc hr
        have hpow : (10 : Nat) ^ (c :: rest).length = 10 * 10 ^ rest.length := by
          rw [List.length_cons, pow_succ]
          ring
        rw [hpow, ← h]
        have : vc * 10 ^ rest.length ≤ 9 * 10 ^ rest.length :=
          Nat.mul_le_mul_right _ hv9
        omega

theorem digitsVal_inj : ∀ (cs1 cs2 : List Char) (v : Nat),
    cs1.length = cs2.length → digitsVal cs1 = some v → digitsVal cs2 = some v →
    cs1 = cs2 := by
  intro cs1
  induction cs1 with
  | nil =>
    intro cs2 v hlen _ _
    cases cs2 with
    | nil => rfl
    | cons c rest => simp at hlen
  | cons c1 rest1 ih =>
    intro cs2 v hlen h1 h2
    cases cs2 with
    | nil => simp at hlen
    | cons c2 rest2 =>
      simp only [List.length_cons] at hlen
      have hlen2 : rest1.length = rest2.length := by omega
      simp only [digitsVal] at h1 h2
      cases hc1 : digitVal c1 with
      | none => rw [hc1] at h1; simp at h1
      | some v1 =>
        rw [hc1] at h1
        cases hr1 : digitsVal rest1 with
        | none => rw [hr1] at h1; simp at h1
        | some a1 =>
          rw [hr1] at h1
          simp at h1
          cases hc2 : digitVal c2 with
          | none => rw [hc2] at h2; simp at h2
          | some v2 =>
            rw [hc2] at h2
            cases hr2 : digitsVal rest2 with
            | none => rw [hr2] at h2; simp at h2
            | some a2 =>
              rw [hr2] at h2
              simp at h2
              have ha1 := digitsVal_lt rest1 a1 hr1
              have ha2 := digitsVal_lt rest2 a2 hr2
              rw [hlen2] at ha1 h1
              set P := (10 : Nat) ^ rest2.length with hP
              have hPpos : 0 < P := by positivity
              have hsum : v1 * P + a1 = v2 * P + a2 := by rw [h1, h2]
              have e1 : (v1 * P + a1) / P = v1 := by
                rw [Nat.mul_comm v1 P, Nat.mul_add_div hPpos, Nat.div_eq_of_lt ha1]
                omega
              have e2 : (v2 * P + a2) / P = v2 := by
                rw [Nat.mul_comm v2 P, Nat.mul_add_div hPpos, Nat.div_eq_of_lt ha2]
                omega
              have hv : v1 = v2 := by rw [← e1, ← e2, hsum]
              have ha : a1 = a2 := by
                rw [hv] at hsum
                exact Nat.add_left_cancel hsum
              obtain ⟨_, hcc1⟩ := digitVal_elim c1 v1 hc1
              obtain ⟨_, hcc2⟩ := digitVal_elim c2 v2 hc2
              have hcc : c1 = c2 := by
                apply Char.ext
                apply UInt32.ext
                show c1.toNat = c2.toNat
                omega
              rw [hcc, ih rest2 a1 hlen2 hr1 (by rw [ha]; exact hr2)]

theorem fromisoformat_elim (s : String) (dt : PyDate) (h : fromisoformat s = some dt) :
    ∃ c1 c2 c3 c4 c5 c6 c7 c8,
      s.toList = [c1, c2, c3, c4, '-', c5, c6, '-', c7, c8] ∧
      digitsVal [c1, c2, c3, c4] = some dt.y ∧
      digitsVal [c5, c6] = some dt.m ∧
      digitsVal [c7, c8] = some dt.d ∧ dt.Valid := by
  unfold fromisoformat at h
  split at h
  case h_2 => simp at h
  case h_1 y1 y2 y3 y4 h1 mo1 mo2 h2 d1 d2 heq =>
    split_ifs at h with hh
    obtain ⟨hh1, hh2⟩ := hh
    subst hh1
    subst hh2
    cases hy : digitsVal [y1, y2, y3, y4] with
    | none => rw [hy] at h; simp at h
    | some y =>
      rw [hy] at h
      cases hm : digitsVal [mo1, mo2] with
      | none => rw [hm] at h; simp at h
      | some m =>
        rw [hm] at h
        cases hd : digitsVal [d1, d2] with
        | none => rw [hd] at h; simp at h
        | some d =>
          rw [hd] at h
          simp only [] at h
          split_ifs at h with hv
          simp at h
          subst h
          exact ⟨y1, y2, y3, y4, mo1, mo2, d1, d2, heq, hy, hm, hd, hv⟩

theorem fromisoformat_valid (s : String) (dt : PyDate) (h : fromisoformat s = some dt) :
    dt.Valid := by
  obtain ⟨_, _, _, _, _, _, _, _, _, _, _, _, hv⟩ := fromisoformat_elim s dt h
  exact hv

theorem fromisoformat_inj (s1 s2 : String) (dt : PyDate)
    (h1 : fromisoformat s1 = some dt) (h2 : fromisoformat s2 = some dt) : s1 = s2 := by
  obtain ⟨a1, a2, a3, a4, a5, a6, a7, a8, heq1, hy1, hm1, hd1, _⟩ :=
    fromisoformat_elim s1 dt h1
  obtain ⟨b1, b2, b3, b4, b5, b6, b7, b8, heq2, hy2, hm2, hd2, _⟩ :=
    fromisoformat_elim s2 dt h2
  have e4 : [a1, a2, a3, a4] = [b1, b2, b3, b4] := digitsVal_inj _ _ _ rfl hy1 hy2
  have e2 : [a5, a6] = [b5, b6] := digitsVal_inj _ _ _ rfl hm1 hm2
  have e3 : [a7, a8] = [b7, b8] := digitsVal_inj _ _ _ rfl hd1 hd2
  have hlist : s1.toList = s2.toList := by
    rw [heq1, heq2]
    simp at e4 e2 e3
    simp [e4.1, e4.2.1, e4.2.2.1, e4.2.2.2, e2.1, e2.2, e3.1, e3.2]
  cases s1
  cases s2
  exact congrArg String.mk hlist

/-! ## Lemmas: ordinal-date arithmetic -/

theorem dby_succ (y : Nat) (h : 1 ≤ y) :
    days_before_year (y + 1) = days_before_year y + (if isLeap y then 366 else 365) := by
  obtain ⟨z, rfl⟩ : ∃ z, y = z + 1 := ⟨y - 1, by omega⟩
  unfold days_before_year
  simp only [Nat.add_sub_cancel]
  have h4 := Nat.succ_div z 4
  have h100 := Nat.succ_div z 100
  have h400 := Nat.succ_div z 400
  by_cases c4 : 4 ∣ (z + 1) <;> by_cases c100 : 100 ∣ (z + 1) <;>
    by_cases c400 : 400 ∣ (z + 1)
  · rw [if_pos c4] at h4
    rw [if_pos c100] at h100
    rw [if_pos c400] at h400
    have hleap : isLeap (z + 1) = true := by simp [isLeap]; omega
    rw [hleap]
    simp only [if_true]
    omega
  · rw [if_pos c4] at h4
    rw [if_pos c100] at h100
    rw [if_neg c400] at h400
    have hleap : isLeap (z + 1) = false := by simp [isLeap]; omega
    rw [hleap]
    simp only [Bool.false_eq_true, if_false]
    omega
  · exact absurd (dvd_trans (by norm_num : (100 : Nat) ∣ 400) c400) c100
  · rw [if_pos c4] at h4
    rw [if_neg c100] at h100
    rw [if_neg c400] at h400
    have hleap : isLeap (z + 1) = true := by simp [isLeap]; omega
    rw [hleap]
    simp only [if_true]
    omega
  · exact absurd (dvd_trans (by norm_num : (4 : Nat) ∣ 100) c100) c4
  · exact absurd (dvd_trans (by norm_num : (4 : Nat) ∣ 100) c100) c4
  · exact absurd (dvd_trans (by norm_num : (100 : Nat) ∣ 400) c400) c100
  · rw [if_neg c4] at h4
    rw [if_neg c100] at h100
    rw [if_neg c400] at h400
    have hleap : isLeap (z + 1) = false := by simp [isLeap]; omega
    rw [hleap]
    simp only [Bool.false_eq_true, if_false]
    omega

theorem dby_mono (y1 : Nat) (h1 : 1 ≤ y1) :
    ∀ y2, y1 ≤ y2 → days_before_year y1 ≤ days_before_year y2 := by
  intro y2
  induction y2 with
  | zero => intro h; exact absurd h (by omega)
  | succ n ih =>
    intro h
    by_cases hn : y1 ≤ n
    · have hstep := dby_succ n (by omega)
      have hle : days_before_year n ≤ days_before_year (n + 1) := by
        rw [hstep]
        split_ifs <;> omega
      exact le_trans (ih hn) hle
    · have he : y1 = n + 1 := by omega
      rw [he]

theorem dbm_plus_dim (y m : Nat) (h1 : 1 ≤ m) (h2 : m ≤ 11) :
    days_before_month y (m + 1) = days_before_month y m + daysInMonth y m := by
  interval_cases m <;> cases hL : isLeap y <;>
    simp [days_before_month, daysBeforeMonthBase, daysInMonth, hL]

theorem dbm_mono (y m1 m2 : Nat) (h1 : 1 ≤ m1) (hm : m1 ≤ m2) (h2 : m2 ≤ 12) :
    days_before_month y m1 ≤ days_before_month y m2 := by
  have hu : m1 ≤ 12 := le_trans hm h2
  interval_cases m1 <;> interval_cases m2 <;> cases hL : isLeap y <;>
    simp [days_before_month, daysBeforeMonthBase, hL]

theorem dbm_d_le (y m d : Nat) (hm1 : 1 ≤ m) (hm2 : m ≤ 12) (hd1 : 1 ≤ d)
    (hd2 : d ≤ daysInMonth y m) :
    days_before_month y m + d ≤ (if isLeap y then 366 else 365) := by
  interval_cases m <;> cases hL : isLeap y <;>
    simp [days_before_month, daysBeforeMonthBase, daysInMonth, hL] at hd2 ⊢ <;> omega

theorem toDays_lt (a b : PyDate) (ha : a.Valid) (hb : b.Valid)
    (h : a.y < b.y ∨ (a.y = b.y ∧ (a.m < b.m ∨ (a.m = b.m ∧ a.d < b.d)))) :
    a.toDays < b.toDays := by
  obtain ⟨hay, hay2, ham, ham2, had, had2⟩ := ha
  obtain ⟨hby, hby2, hbm, hbm2, hbd, hbd2⟩ := hb
  unfold PyDate.toDays
  rcases h with hy | ⟨hy, hm | ⟨hm, hd⟩⟩
  · have h1 : days_before_month a.y a.m + a.d ≤ (if isLeap a.y then 366 else 365) :=
      dbm_d_le a.y a.m a.d ham ham2 had had2
    have h2 := dby_succ a.y hay
    have h3 := dby_mono (a.y + 1) (by omega) b.y (by omega)
    split_ifs at h1 h2 <;> omega
  · rw [hy]
    rw [hy] at had2
    have h1 := dbm_plus_dim b.y a.m ham (by omega)
    have h2 := dbm_mono b.y (a.m + 1) b.m (by omega) (by omega) hbm2
    omega
  · rw [hy, hm]
    omega

theorem toDays_inj (a b : PyDate) (ha : a.Valid) (hb : b.Valid)
    (h : a.toDays = b.toDays) : a = b := by
  rcases Nat.lt_trichotomy a.y b.y with h1 | h1 | h1
  · exact absurd h (Nat.ne_of_lt (toDays_lt a b ha hb (Or.inl h1)))
  · rcases Nat.lt_trichotomy a.m b.m with h2 | h2 | h2
    · exact absurd h (Nat.ne_of_lt (toDays_lt a b ha hb (Or.inr ⟨h1, Or.inl h2⟩)))
    · rcases Nat.lt_trichotomy a.d b.d with h3 | h3 | h3
      · exact absurd h
          (Nat.ne_of_lt (toDays_lt a b ha hb (Or.inr ⟨h1, Or.inr ⟨h2, h3⟩⟩)))
      · cases a
        cases b
        simp_all
      · exact absurd h.symm (Nat.ne_of_lt
          (toDays_lt b a hb ha (Or.inr ⟨h1.symm, Or.inr ⟨h2.symm, h3⟩⟩)))
    · exact absurd h.symm (Nat.ne_of_lt (toDays_lt b a hb ha (Or.inr ⟨h1.symm, Or.inl h2⟩)))
  · exact absurd h.symm (Nat.ne_of_lt (toDays_lt b a hb ha (Or.inl h1)))

/-! ## Lemmas: the streak-loop invariant -/

theorem parseKeys_facts (m : List (String × String)) :
    ∀ l, parseKeys m = some l →
      (∀ x ∈ l, fromisoformat x.2 = some x.1) ∧ l.map Prod.snd = m.map Prod.fst := by
  induction m with
  | nil =>
    intro l h
    simp [parseKeys] at h
    subst h
    simp
  | cons p rest ih =>
    intro l h
    obtain ⟨k, mo⟩ := p
    simp only [parseKeys] at h
    cases hp : fromisoformat k with
    | none => rw [hp] at h; simp at h
    | some dt =>
      rw [hp] at h
      cases hr : parseKeys rest with
      | none => rw [hr] at h; simp at h
      | some l2 =>
        rw [hr] at h
        simp at h
        subst h
        obtain ⟨ih1, ih2⟩ := ih l2 hr
        refine ⟨?_, by simp [ih2]⟩
        intro x hx
        rcases List.mem_cons.mp hx with hx | hx
        · rw [hx]; exact hp
        · exact ih1 x hx

theorem parsed_toDays_nodup (l : List (PyDate × String))
    (hparse : ∀ x ∈ l, fromisoformat x.2 = some x.1)
    (hnd : (l.map Prod.snd).Nodup) :
    (l.map (fun x => x.1.toDays)).Nodup := by
  have hndl : l.Nodup := hnd.of_map
  refine List.Nodup.map_on ?_ hndl
  intro x hx y hy hxy
  have hfx := hparse x hx
  have hfy := hparse y hy
  have hvx := fromisoformat_valid _ _ hfx
  have hvy := fromisoformat_valid _ _ hfy
  have hdd : x.1 = y.1 := toDays_inj _ _ hvx hvy hxy
  rw [← hdd] at hfy
  have hk : x.2 = y.2 := fromisoformat_inj x.2 y.2 x.1 hfx hfy
  exact Prod.ext hdd hk

theorem pairwise_lt_of_le (l : List (PyDate × String))
    (hle : l.Pairwise (fun a b => a.1.toDays ≤ b.1.toDays))
    (hnd : (l.map (fun x => x.1.toDays)).Nodup) :
    l.Pairwise (fun a b => a.1.toDays < b.1.toDays) := by
  induction l with
  | nil => exact List.Pairwise.nil
  | cons a rest ih =>
    rw [List.map_cons] at hnd
    obtain ⟨hh, ht⟩ := List.nodup_cons.mp hnd
    obtain ⟨hle1, hle2⟩ := List.pairwise_cons.mp hle
    refine List.pairwise_cons.mpr ⟨?_, ih hle2 ht⟩
    intro b hb
    have hne : a.1.toDays ≠ b.1.toDays := fun hc => hh (by
      rw [hc]
      exact List.mem_map_of_mem _ hb)
    exact Nat.lt_of_le_of_ne (hle1 b hb) hne

theorem streaksGo_inv (m : List (String × String)) :
    ∀ (ds : List (PyDate × String)) (start prev : PyDate × String) (cur : String)
      (len : Nat) (acc : List (String × String × String × Nat)),
      fromisoformat start.2 = some start.1 →
      fromisoformat prev.2 = some prev.1 →
      (∀ x ∈ ds, fromisoformat x.2 = some x.1) →
      (prev :: ds).Pairwise (fun a b : PyDate × String => a.1.toDays < b.1.toDays) →
      start.1.toDays + len = prev.1.toDays + 1 →
      1 ≤ len →
      (∀ x ∈ acc, (fromisoformat x.1).isSome ∧ (fromisoformat x.2.1).isSome ∧
        startOrd x ≤ endOrd x ∧ x.2.2.2 + startOrd x = endOrd x + 1 ∧
        endOrd x < start.1.toDays) →
      acc.Pairwise (fun a b => endOrd a < startOrd b) →
      (∀ x ∈ streaksGo m ds start prev cur len acc,
        (fromisoformat x.1).isSome ∧ (fromisoformat x.2.1).isSome ∧
        startOrd x ≤ endOrd x ∧ x.2.2.2 + startOrd x = endOrd x + 1) ∧
      (streaksGo m ds start prev cur len acc).Pairwise
        (fun a b => endOrd a < startOrd b) ∧
      ((streaksGo m ds start prev cur len acc).map (fun x => x.2.2.2)).sum =
        (acc.map (fun x => x.2.2.2)).sum + len + ds.length := by
  intro ds
  induction ds with
  | nil =>
    intro start prev cur len acc hps hpp hpd hpw hsp hlen hacc haccpw
    simp only [streaksGo]
    have hso : startOrd (start.2, prev.2, cur, len) = start.1.toDays := by
      simp [startOrd, hps]
    have heo : endOrd (start.2, prev.2, cur, len) = prev.1.toDays := by
      simp [endOrd, hpp]
    refine ⟨?_, ?_, ?_⟩
    · intro x hx
      rcases List.mem_append.mp hx with hm | hm
      · obtain ⟨a, b, c, dd, _⟩ := hacc x hm
        exact ⟨a, b, c, dd⟩
      · simp only [List.mem_singleton] at hm
        subst hm
        refine ⟨by simp [startOrd, hps], by simp [endOrd, hpp], ?_, ?_⟩
        · rw [hso, heo]; omega
        · rw [hso, heo]
          show len + start.1.toDays = prev.1.toDays + 1
          omega
    · rw [List.pairwise_append]
      refine ⟨haccpw, by simp, ?_⟩
      intro a ha b hb
      simp only [List.mem_singleton] at hb
      subst hb
      rw [hso]
      exact (hacc a ha).2.2.2.2
    · simp
  | cons d ds ih =>
    intro start prev cur len acc hps hpp hpd hpw hsp hlen hacc haccpw
    simp only [streaksGo]
    have hd : fromisoformat d.2 = some d.1 := hpd d (List.mem_cons_self _ _)
    have hpd2 : ∀ x ∈ ds, fromisoformat x.2 = some x.1 :=
      fun x hx => hpd x (List.mem_cons.mpr (Or.inr hx))
    have hprevd : prev.1.toDays < d.1.toDays :=
      (List.pairwise_cons.mp hpw).1 d (List.mem_cons_self _ _)
    have hpw2 : (d :: ds).Pairwise (fun a b : PyDate × String => a.1.toDays < b.1.toDays) :=
      (List.pairwise_cons.mp hpw).2
    split_ifs with hcond
    · obtain ⟨hgap, hmood⟩ := hcond
      have hres := ih start d cur (len + 1) acc hps hd hpd2 hpw2 (by omega) (by omega)
        (fun x hx => hacc x hx) haccpw
      refine ⟨hres.1, hres.2.1, ?_⟩
      rw [hres.2.2]
      simp
      omega
    · have hso : startOrd (start.2, prev.2, cur, len) = start.1.toDays := by
        simp [startOrd, hps]
      have heo : endOrd (start.2, prev.2, cur, len) = prev.1.toDays := by
        simp [endOrd, hpp]
      have hacc2 : ∀ x ∈ acc ++ [(start.2, prev.2, cur, len)],
          (fromisoformat x.1).isSome ∧ (fromisoformat x.2.1).isSome ∧
          startOrd x ≤ endOrd x ∧ x.2.2.2 + startOrd x = endOrd x + 1 ∧
          endOrd x < d.1.toDays := by
        intro x hx
        rcases List.mem_append.mp hx with hm | hm
        · obtain ⟨a, b, c, dd, he⟩ := hacc x hm
          exact ⟨a, b, c, dd, by omega⟩
        · simp only [List.mem_singleton] at hm
          subst hm
          refine ⟨by simp [startOrd, hps], by simp [endOrd, hpp], ?_, ?_, ?_⟩
          · rw [hso, heo]; omega
          · rw [hso, heo]
            show len + start.1.toDays = prev.1.toDays + 1
            omega
          · rw [heo]; omega
      have haccpw2 : (acc ++ [(start.2, prev.2, cur, len)]).Pairwise
          (fun a b => endOrd a < startOrd b) := by
        rw [List.pairwise_append]
        refine ⟨haccpw, by simp, ?_⟩
        intro a ha b hb
        simp only [List.mem_singleton] at hb
        subst hb
        rw [hso]
        exact (hacc a ha).2.2.2.2
      have hres := ih d d (moodOf m d.2) 1 (acc ++ [(start.2, prev.2, cur, len)])
        hd hd hpd2 hpw2 (by omega) le_rfl hacc2 haccpw2
      refine ⟨hres.1, hres.2.1, ?_⟩
      rw [hres.2.2]
      simp
      omega

/-! ## Claim theorem: streak invariants -/

/-- C10: on every day-to-mood map with distinct, valid ISO date keys,
every reported streak satisfies start ≤ end and length = (end − start) +
1 in days, the streaks are in ascending date order with pairwise disjoint
date ranges (each streak ends strictly before the next begins), and the
streak lengths sum to the number of distinct dates in the map. -/
theorem C10_streak_invariants (m : List (String × String))
    (hnd : (m.map Prod.fst).Nodup)
    (hval : ∀ p ∈ m, (fromisoformat p.1).isSome) :
    ∃ out, compute_streaks m = some out ∧
      (∀ x ∈ out, (fromisoformat x.1).isSome ∧ (fromisoformat x.2.1).isSome ∧
        startOrd x ≤ endOrd x ∧ x.2.2.2 + startOrd x = endOrd x + 1) ∧
      out.Pairwise (fun a b => endOrd a < startOrd b) ∧
      (out.map (fun x => x.2.2.2)).sum = m.length := by
  cases m with
  | nil => exact ⟨[], rfl, by simp, by simp, by simp⟩
  | cons p rest =>
    obtain ⟨pks, hpks⟩ := parseKeys_isSome _ hval
    obtain ⟨hparse, hsnd⟩ := parseKeys_facts _ pks hpks
    have hlen := parseKeys_length _ pks hpks
    have hperm := sortedBy_perm dateLe pks
    have hparleS : ∀ x ∈ sortedBy dateLe pks, fromisoformat x.2 = some x.1 :=
      fun x hx => hparse x (hperm.mem_iff.mp hx)
    have hpwle : (sortedBy dateLe pks).Pairwise (fun a b => dateLe a b = true) :=
      sortedBy_pairwise dateLe
        (fun a b c hab hbc => by
          simp only [dateLe, decide_eq_true_eq] at *
          omega)
        (fun a b hab => by
          simp only [dateLe, decide_eq_false_iff_not, decide_eq_true_eq] at *
          omega)
        pks
    have hpwle2 : (sortedBy dateLe pks).Pairwise
        (fun a b : PyDate × String => a.1.toDays ≤ b.1.toDays) :=
      hpwle.imp (fun h => by simpa [dateLe] using h)
    have hndK : ((sortedBy dateLe pks).map Prod.snd).Nodup := by
      have h1 : (pks.map Prod.snd).Nodup := by rw [hsnd]; exact hnd
      exact h1.perm (hperm.map Prod.snd).symm
    have hndD := parsed_toDays_nodup _ hparleS hndK
    have hpwlt := pairwise_lt_of_le _ hpwle2 hndD
    cases hsorted : sortedBy dateLe pks with
    | nil =>
      have h2 := hperm.length_eq
      rw [hsorted] at h2
      simp at h2 hlen
      omega
    | cons d0 ds =>
      rw [hsorted] at hpwlt hparleS
      have hd0 := hparleS d0 (List.mem_cons_self _ _)
      have inv := streaksGo_inv (p :: rest) ds d0 d0 (moodOf (p :: rest) d0.2) 1 []
        hd0 hd0 (fun x hx => hparleS x (List.mem_cons.mpr (Or.inr hx))) hpwlt
        (by omega) le_rfl (by simp) (by simp)
      refine ⟨_, by simp [compute_streaks, hpks, hsorted], inv.1, inv.2.1, ?_⟩
      rw [inv.2.2]
      have h2 := hperm.length_eq
      rw [hsorted] at h2
      simp at h2 hlen
      simp
      omega

/-- Witness for C10 at a concrete two-day input. -/
theorem C10_streak_invariants_witness :
    ∃ out, compute_streaks [("2024-02-28", "neutral"), ("2024-02-29", "neutral")] =
        some out ∧
      (∀ x ∈ out, (fromisoformat x.1).isSome ∧ (fromisoformat x.2.1).isSome ∧
        startOrd x ≤ endOrd x ∧ x.2.2.2 + startOrd x = endOrd x + 1) ∧
      out.Pairwise (fun a b => endOrd a < startOrd b) ∧
      (out.map (fun x => x.2.2.2)).sum =
        ([("2024-02-28", "neutral"), ("2024-02-29", "neutral")] :
          List (String × String)).length :=
  C10_streak_invariants [("2024-02-28", "neutral"), ("2024-02-29", "neutral")]
    (by decide) (by decide)

end BPDTracker
